import Mathlib

/-!
# Tic-tac-toe over UDP: a model of `main.c`

The board, the win detection, the move recording, the wire encoding of a move,
the acknowledgment check and the turn loop of `main`, followed by the
properties established about them.

C `int` values are `Int` (no arithmetic in the program leaves the 32-bit
range: positions are at most 9 characters of decimal text or a 16-bit value),
bytes are `Nat` below 256, and an out-of-bounds array write is a failure
(`none`).
-/

namespace TicTacToe

/-! ## Constants -/

/-- `#define MAX_RESPONSE 1024`. -/
def MAX_RESPONSE : Nat := 1024

/-- `#define CONNECTION_SIGNAL 777`. -/
def CONNECTION_SIGNAL : Int := 777

/-! ## Board -/

/-- `int board[3][3]`: every cell is addressed by a row and a column in `0..2`. -/
abbrev Board := Fin 3 → Fin 3 → Int

/-- The initialiser of the global `board`: all cells `0`. -/
def emptyBoard : Board := fun _ _ => 0

/-- The assignment `board[r][c] = v`. -/
def setCell (board : Board) (r c : Fin 3) (v : Int) : Board :=
  fun i j => if i = r ∧ j = c then v else board i j

/-- An index computed as a C `int`, usable on a dimension of size 3 only when it lies in `0..2`. -/
def index3 (i : Int) : Option (Fin 3) :=
  if h : 0 ≤ i ∧ i < 3 then some ⟨i.toNat, by omega⟩ else none

/-- The cell addressed by `add_movement` for a position:
`row = (position - 1) / 3`, `col = (position - 1) % 3` with C's truncating
division; `none` when `board[row][col]` is outside the array. -/
def cellOf (position : Int) : Option (Fin 3 × Fin 3) :=
  let row := Int.tdiv (position - 1) 3
  let col := Int.tmod (position - 1) 3
  match index3 row, index3 col with
  | some r, some c => some (r, c)
  | _, _ => none

/-- The value written by `add_movement`: `isHost ? 1 : 2`. -/
def markOf (isHost : Bool) : Int := if isHost then 1 else 2

/-- `add_movement(position, isHost, playedIndex, played)` acting on the global
board. `playedIndex` is the pointer argument (`none` for `NULL`, otherwise the
value it points to) and `played` the array it indexes. The result is the new
board, the new `*playedIndex` and the new `played`; `none` when a write falls
outside its array. -/
def add_movement (position : Int) (isHost : Bool) (playedIndex : Option Nat)
    (played : List Int) (board : Board) : Option (Board × Option Nat × List Int) :=
  match cellOf position with
  | none => none
  | some (row, col) =>
    let board1 := setCell board row col (markOf isHost)
    match playedIndex with
    | none => some (board1, none, played)
    | some n =>
      if n < played.length then some (board1, some (n + 1), played.set n position)
      else none

/-! ## Win detection -/

/-- The first loop of `win`: rows `i` in the given order. -/
def winRows (board : Board) : List (Fin 3) → Option Int
  | [] => none
  | i :: rest =>
    if board i 0 = board i 1 ∧ board i 1 = board i 2 then some (board i 0)
    else winRows board rest

/-- The second loop of `win`: columns `i` in the given order. -/
def winCols (board : Board) : List (Fin 3) → Option Int
  | [] => none
  | i :: rest =>
    if board 0 i = board 1 i ∧ board 1 i = board 2 i then some (board 0 i)
    else winCols board rest

/-- `win()`: rows, then columns, then the two diagonals; the first line whose
three cells are equal decides the result. -/
def win (board : Board) : Int :=
  match winRows board [0, 1, 2] with
  | some v => v
  | none =>
    match winCols board [0, 1, 2] with
    | some v => v
    | none =>
      if board 0 0 = board 1 1 ∧ board 1 1 = board 2 2 then board 0 0
      else if board 0 2 = board 1 1 ∧ board 1 1 = board 2 0 then board 0 2
      else 0

/-- The eight lines of the board: three rows, three columns, two diagonals. -/
def lines : List (List (Fin 3 × Fin 3)) :=
  [ [(0, 0), (0, 1), (0, 2)], [(1, 0), (1, 1), (1, 2)], [(2, 0), (2, 1), (2, 2)],
    [(0, 0), (1, 0), (2, 0)], [(0, 1), (1, 1), (2, 1)], [(0, 2), (1, 2), (2, 2)],
    [(0, 0), (1, 1), (2, 2)], [(0, 2), (1, 1), (2, 0)] ]

/-- All cells of a line hold the value `m`. -/
def lineFull (board : Board) (m : Int) (line : List (Fin 3 × Fin 3)) : Prop :=
  ∀ cell ∈ line, board cell.1 cell.2 = m

instance (board : Board) (m : Int) (line : List (Fin 3 × Fin 3)) :
    Decidable (lineFull board m line) := by
  unfold lineFull; infer_instance

/-- Every cell of the board is `0`, `1` or `2`. -/
def cellsValid (board : Board) : Prop :=
  ∀ i j, board i j = 0 ∨ board i j = 1 ∨ board i j = 2

instance (board : Board) : Decidable (cellsValid board) := by
  unfold cellsValid; infer_instance

/-- The number of cells different from `0`. -/
def occupied (board : Board) : Nat :=
  ((List.finRange 3).map fun i => ((List.finRange 3).filter fun j => board i j ≠ 0).length).sum

/-- A board written row by row. -/
def boardOf (rows : List (List Int)) : Board :=
  fun i j => (rows.getD i.val []).getD j.val 0

/-! ## Wire encoding of a move -/

/-- Conversion of an `int` to `uint16_t`: reduction modulo `2^16`. -/
def toUint16 (x : Int) : Nat := (x % 65536).toNat

/-- `htons` on a 16-bit value: the two bytes are swapped on a little-endian
host and left in place on a big-endian one. -/
def htons (littleEndian : Bool) (x : Nat) : Nat :=
  if littleEndian then (x % 256) * 256 + (x / 256) % 256 else x % 65536

/-- `ntohs`: the same byte swap as `htons`. -/
def ntohs (littleEndian : Bool) (x : Nat) : Nat :=
  if littleEndian then (x % 256) * 256 + (x / 256) % 256 else x % 65536

/-- The two bytes of a `uint16_t` object in host memory, lowest address first. -/
def storeU16 (littleEndian : Bool) (x : Nat) : List Nat :=
  if littleEndian then [x % 256, (x / 256) % 256] else [(x / 256) % 256, x % 256]

/-- The `uint16_t` read back from the first two bytes that `recvfrom` stored;
`none` when the datagram did not fill the object. -/
def loadU16 (littleEndian : Bool) : List Nat → Option Nat
  | b0 :: b1 :: _ => some (if littleEndian then b0 + 256 * b1 else 256 * b0 + b1)
  | _ => none

/-- The datagram `send_movement` passes to `sendto`:
`uint16_t pos = htons(position)` read as `sizeof(pos)` bytes from `&pos`. -/
def moveDatagram (littleEndian : Bool) (position : Int) : List Nat :=
  storeU16 littleEndian (htons littleEndian (toUint16 position))

/-- The position `wait_to_recive` returns for a datagram:
`ntohs(request)` after `recvfrom` stored the datagram into `request`. -/
def wait_to_recive (littleEndian : Bool) (datagram : List Nat) : Option Int :=
  (loadU16 littleEndian datagram).map fun r => (ntohs littleEndian r : Int)

/-! ## Acknowledgment check -/

/-- `strcmp` on byte strings: a `0` byte or the end of the list terminates a
string; the result is `0` exactly when both strings are equal up to their
terminators. -/
def strcmp : List Nat → List Nat → Int
  | [], [] => 0
  | [], b :: _ => -(b : Int)
  | a :: _, [] => (a : Int)
  | a :: as, b :: bs =>
    if a ≠ b then (a : Int) - (b : Int)
    else if a = 0 then 0
    else strcmp as bs

/-- The bytes of the literal `"OK"`. -/
def OK : List Nat := [79, 75]

/-- The buffer of `send_movement` after `recvfrom(fd, buffer, sizeof(buffer) - 1, ...)`
and `buffer[nrecv] = 0`: at most `MAX_RESPONSE - 1` payload bytes, then a `0`. -/
def replyBuffer (payload : List Nat) : List Nat :=
  payload.take (MAX_RESPONSE - 1) ++ [0]

/-- The acknowledgment test of `send_movement`: `strcmp(buffer, "OK") == 0`. -/
def ackAccepted (payload : List Nat) : Bool :=
  strcmp (replyBuffer payload) (OK ++ [0]) = 0

/-- `send_movement` as seen by its caller: it returns (`true`) when a reply
arrives and passes the acknowledgment test, and ends the process (`false`) on a
failed `sendto`/`recvfrom` (`reply = none`) or any other reply. -/
def send_movement (reply : Option (List Nat)) : Bool :=
  match reply with
  | none => false
  | some payload => ackAccepted payload

/-! ## Reading a position from standard input -/

/-- The characters one `fgets` call takes from the stream when the buffer has
room for `room` of them: it stops after a newline, which it stores, when the
room is used up, or at the end of the stream. The result is what is stored
and what stays unread. -/
def readLine : Nat → List Char → List Char × List Char
  | 0, stream => ([], stream)
  | _ + 1, [] => ([], [])
  | room + 1, c :: cs =>
    if c = Char.ofNat 10 then ([c], cs)
    else (c :: (readLine room cs).1, (readLine room cs).2)

/-- `fgets(buffer, size, stdin)`: at most `size - 1` characters are stored, the
rest of a longer line stays in the stream for the next read; `none` is the
`NULL` returned at end-of-file. -/
def fgets (size : Nat) (stream : List Char) : Option (List Char × List Char) :=
  match stream with
  | [] => none
  | _ :: _ => some (readLine (size - 1) stream)

/-- What at most `fuel` successive calls `fgets(input, sizeof(input), stdin)`
with `char input[10]` store, up to end-of-file. -/
def buffers : Nat → List Char → List (List Char)
  | 0, _ => []
  | fuel + 1, stream =>
    match fgets 10 stream with
    | none => []
    | some (input, rest) => input :: buffers fuel rest

/-- What the successive calls of `fgets` in the turn loop store when standard
input holds `stream`: every call takes at least one character, so as many
calls as there are characters reach end-of-file. -/
def stdinBuffers (stream : List Char) : List (List Char) :=
  buffers stream.length stream

/-- `isspace` in the C locale: space, `\t`, `\n`, `\v`, `\f`, `\r`. -/
def isspace (c : Char) : Bool :=
  c.toNat = 32 ∨ (9 ≤ c.toNat ∧ c.toNat ≤ 13)

/-- `isdigit`: the characters `0` to `9`. -/
def isdigit (c : Char) : Bool :=
  48 ≤ c.toNat ∧ c.toNat ≤ 57

/-- The value of the longest prefix of decimal digits, continuing from `acc`. -/
def digitsValue : List Char → Nat → Nat
  | [], acc => acc
  | c :: cs, acc => if isdigit c then digitsValue cs (acc * 10 + (c.toNat - 48)) else acc

/-- A non-empty run of decimal digits at the head of the text, as a number. -/
def scanDigits (s : List Char) : Option Nat :=
  match s with
  | [] => none
  | c :: _ => if isdigit c then some (digitsValue s 0) else none

/-- `sscanf(input, "%d", &position)`: white space is skipped, an optional sign
and at least one digit are read, trailing text is ignored. `some v` when the
call returns `1` and stores `v`; `none` when it returns `0` or `EOF` and leaves
`position` alone. (`input` holds at most 9 characters, so `v` fits an `int`.) -/
def sscanf_d (input : List Char) : Option Int :=
  match input.dropWhile isspace with
  | [] => none
  | c :: rest =>
    if c = Char.ofNat 45 then (scanDigits rest).map fun n => -(n : Int)
    else if c = Char.ofNat 43 then (scanDigits rest).map fun n => (n : Int)
    else (scanDigits (c :: rest)).map fun n => (n : Int)

/-! ## The turn loop of `main` -/

/-- One call of `add_movement` made by `main`: the value of `playedIndex` when
the call was made, its arguments, and whether it is the call of the local turn
(line 187) or one of the calls made for a received move (lines 148 and 201). -/
structure Call where
  count : Nat
  position : Int
  isHost : Bool
  fromLocal : Bool
  deriving DecidableEq, Repr

/-- The variables of `main` during the game, what the outside world still has
to deliver, and a record of what the process did.

* `board`, `played`, `playedIndex`, `alreadyPlayed`: the program's variables;
* `net`: the values `wait_to_recive` will return, in order of arrival;
* `acks`: the replies to the datagrams of `send_movement`, in order
  (`none`: the `sendto` or `recvfrom` fails);
* `calls`: the calls of `add_movement` made so far;
* `sent`: the positions passed to `send_movement` so far. -/
structure State where
  board : Board
  played : List Int
  playedIndex : Nat
  alreadyPlayed : Bool
  net : List Nat
  acks : List (Option (List Nat))
  calls : List Call
  sent : List Int

/-- How the process ends, or where it stays blocked for ever. -/
inductive Exit
  /-- The loop was left; `winner` is the value of the final `win()`. -/
  | gameOver (winner : Int)
  /-- `fgets` returned `NULL`: "Input terminated", `exit(1)`. -/
  | inputTerminated
  /-- `ERROR(1, ...)`: invalid connection, invalid response, failed socket call. -/
  | fatalError
  /-- Blocked in `recvfrom` of `wait_to_recive`: no datagram arrives. -/
  | awaitingMove
  /-- Blocked in `recvfrom` of `send_movement`: no reply arrives. -/
  | awaitingAck
  /-- A write outside `board` or `played`. -/
  | memoryFault
  deriving DecidableEq, Repr

/-- What the body of the `while` loop does next. -/
inductive Flow
  /-- Back to the loop condition (`continue`, or the end of the body). -/
  | next
  /-- `break`. -/
  | leave
  /-- The process ends or blocks inside the body. -/
  | halt (e : Exit)
  deriving DecidableEq, Repr

/-- A call `add_movement(position, isHost, &playedIndex, played)` made by
`main`: the call is recorded, then the board and the history are updated. The
flag is `false` when a write of `add_movement` is out of bounds. -/
def callAddMovement (position : Int) (isHost fromLocal : Bool) (st : State) : State × Bool :=
  let st1 := { st with calls := st.calls ++ [⟨st.playedIndex, position, isHost, fromLocal⟩] }
  match add_movement position isHost (some st.playedIndex) st.played st.board with
  | some (board1, some n, played1) =>
    ({ st1 with board := board1, played := played1, playedIndex := n }, true)
  | _ => (st1, false)

/-- The `for` loop over `played[0 .. playedIndex-1]` that updates
`alreadyPlayed`: `true` and `break` at the first entry equal to `position`,
`false` after every other entry; untouched when there is no entry. -/
def scanPlayed (position : Int) : List Int → Bool → Bool
  | [], alreadyPlayed => alreadyPlayed
  | p :: rest, _ => if p = position then true else scanPlayed position rest false

/-- The part of the loop body after the local move was recorded and displayed:
send it, test for the end of the game, wait for the peer's move, record it,
test again. -/
def afterLocalMove (host : Bool) (position : Int) (st : State) : State × Flow :=
  let st1 := { st with sent := st.sent ++ [position] }
  match st1.acks with
  | [] => (st1, .halt .awaitingAck)
  | reply :: acks1 =>
    let st2 := { st1 with acks := acks1 }
    if send_movement reply = false then (st2, .halt .fatalError)
    else if win st2.board ≠ 0 then (st2, .leave)
    else if st2.playedIndex = 9 then (st2, .leave)
    else
      match st2.net with
      | [] => (st2, .halt .awaitingMove)
      | v :: net1 =>
        match callAddMovement (v : Int) (!host) false { st2 with net := net1 } with
        | (st3, false) => (st3, .halt .memoryFault)
        | (st3, true) => if win st3.board ≠ 0 then (st3, .leave) else (st3, .next)

/-- One pass through the body of `while (playedIndex < 9)`, given what `fgets`
stored into `input`: the parse with its range test, the second range test, the
scan of the history, and for an accepted position the local move and what
follows it. -/
def loopBody (host : Bool) (st : State) (input : List Char) : State × Flow :=
  match sscanf_d input with
  | none => (st, .next)
  | some position =>
    if position < 1 ∨ position > 9 then (st, .next)
    else if position < 1 ∨ position > 9 then (st, .next)
    else
      let st1 := { st with
        alreadyPlayed := scanPlayed position (st.played.take st.playedIndex) st.alreadyPlayed }
      if st1.alreadyPlayed then (st1, .next)
      else
        match callAddMovement position host true st1 with
        | (st2, false) => (st2, .halt .memoryFault)
        | (st2, true) => afterLocalMove host position st2

/-- The code after the loop: `int winner = win();` and the outcome message. -/
def finish (st : State) : State × Exit := (st, .gameOver (win st.board))

/-- The loop `while (playedIndex < 9) { ... }`; `stdin` lists what the
successive calls of `fgets` store into `input` (`stdinBuffers` of the
characters on standard input), and its end is end-of-file. -/
def turnLoop (host : Bool) : List (List Char) → State → State × Exit
  | [], st => if st.playedIndex < 9 then (st, .inputTerminated) else finish st
  | input :: rest, st =>
    if st.playedIndex < 9 then
      match loopBody host st input with
      | (st1, .next) => turnLoop host rest st1
      | (st1, .leave) => finish st1
      | (st1, .halt e) => (st1, e)
    else finish st

/-- The state when the socket has been created: the empty board,
`int played[9] = { 0 }`, `playedIndex = 0`, `alreadyPlayed = false`. -/
def initial (net : List Nat) (acks : List (Option (List Nat))) : State :=
  { board := emptyBoard, played := List.replicate 9 0, playedIndex := 0,
    alreadyPlayed := false, net := net, acks := acks, calls := [], sent := [] }

/-- The game as played by `main` once the socket exists: the handshake (the
host waits for `CONNECTION_SIGNAL`, the client sends it), the client's wait for
the host's first move, and the turn loop. -/
def main (host : Bool) (stdin : List (List Char)) (net : List Nat)
    (acks : List (Option (List Nat))) : State × Exit :=
  let st := initial net acks
  if host then
    match st.net with
    | [] => (st, .awaitingMove)
    | v :: net1 =>
      if (v : Int) = CONNECTION_SIGNAL then turnLoop host stdin { st with net := net1 }
      else (st, .fatalError)
  else
    let st1 := { st with sent := st.sent ++ [CONNECTION_SIGNAL] }
    match st1.acks with
    | [] => (st1, .awaitingAck)
    | reply :: acks1 =>
      let st2 := { st1 with acks := acks1 }
      if send_movement reply = false then (st2, .fatalError)
      else
        match st2.net with
        | [] => (st2, .awaitingMove)
        | v :: net1 =>
          match callAddMovement (v : Int) (!host) false { st2 with net := net1 } with
          | (st3, false) => (st3, .memoryFault)
          | (st3, true) => turnLoop host stdin st3

/-! ## Invariants of the turn loop -/

/-- What holds of the call number `k` (counted from 0) of `add_movement` in
the process of role `host`: it finds `k` moves recorded, `k` is below 9, it
writes for the host exactly when `k` is even, and it is the call of the local
turn exactly when it writes for the process's own role. -/
def CallOk (host : Bool) (k : Nat) (c : Call) : Prop :=
  c.count = k ∧ k < 9 ∧ (c.isHost = true ↔ k % 2 = 0) ∧ (c.fromLocal = true ↔ c.isHost = host)

/-- Every recorded call satisfies `CallOk` at its index. -/
def CallsOk (host : Bool) (calls : List Call) : Prop :=
  ∀ k c, calls[k]? = some c → CallOk host k c

/-- The invariant at the loop condition `playedIndex < 9`. -/
structure LoopInv (host : Bool) (st : State) : Prop where
  length_played : st.played.length = 9
  count_le : st.playedIndex ≤ 9
  calls_length : st.calls.length = st.playedIndex
  flag : st.playedIndex = 0 → st.alreadyPlayed = false
  parity : st.playedIndex % 2 = if host then 0 else 1
  calls_ok : CallsOk host st.calls
  history : st.played.take st.playedIndex = (st.calls.take st.playedIndex).map Call.position

/-- What holds wherever the process ends or blocks. -/
structure EndInv (host : Bool) (st : State) : Prop where
  length_played : st.played.length = 9
  count_le : st.playedIndex ≤ 9
  calls_length : st.calls.length ≤ 9
  recorded_le : st.playedIndex ≤ st.calls.length
  calls_ok : CallsOk host st.calls
  history : st.played.take st.playedIndex = (st.calls.take st.playedIndex).map Call.position

/-! ## Boards, inputs and states used as examples -/

/-- What `fgets` stores for a typed line: the text and the newline. -/
def typed (text : String) : List Char := text.toList ++ [Char.ofNat 10]

/-- The board after the host played 4, 5, 6 and the client 7, 8. -/
def middleRowBoard : Board := boardOf [[0, 0, 0], [1, 1, 1], [2, 2, 0]]

/-- A full board without a completed line (five host marks, four client marks). -/
def drawBoard : Board := boardOf [[1, 2, 1], [1, 2, 2], [2, 1, 1]]

/-- The host's game with the local moves 4, 5, 6 and the received moves 7, 8:
a legal game in which the host's third move completes the middle row. -/
def middleRowRun : State × Exit :=
  main true [typed "4", typed "5", typed "6"] [777, 7, 8] [some OK, some OK, some OK]

/-- The same game when the peer then sends 9 and the host types 1. -/
def middleRowRunOn : State × Exit :=
  main true [typed "4", typed "5", typed "6", typed "1"] [777, 7, 8, 9]
    [some OK, some OK, some OK, some OK]

/-- The host's game 1, 2, 3, 5, 4, 6, 8, 7, 9: nine moves and no line. -/
def drawRun : State × Exit :=
  main true [typed "1", typed "3", typed "4", typed "8", typed "9"] [777, 2, 5, 6, 7]
    [some OK, some OK, some OK, some OK, some OK]

/-- The host plays 5 and the peer's next datagram carries 5 as well. -/
def duplicateRun : State × Exit :=
  main true [typed "5"] [777, 5] [some OK]

/-- The host plays 5 and the peer's next datagram carries the sentinel 777. -/
def sentinelRun : State × Exit :=
  main true [typed "5"] [777, 777] [some OK]

/-! ## Win detection: properties -/

/-- The eight tests of `win`, in the order in which the loops perform them. -/
theorem win_eq (board : Board) : win board =
    if board 0 0 = board 0 1 ∧ board 0 1 = board 0 2 then board 0 0
    else if board 1 0 = board 1 1 ∧ board 1 1 = board 1 2 then board 1 0
    else if board 2 0 = board 2 1 ∧ board 2 1 = board 2 2 then board 2 0
    else if board 0 0 = board 1 0 ∧ board 1 0 = board 2 0 then board 0 0
    else if board 0 1 = board 1 1 ∧ board 1 1 = board 2 1 then board 0 1
    else if board 0 2 = board 1 2 ∧ board 1 2 = board 2 2 then board 0 2
    else if board 0 0 = board 1 1 ∧ board 1 1 = board 2 2 then board 0 0
    else if board 0 2 = board 1 1 ∧ board 1 1 = board 2 0 then board 0 2
    else 0 := by
  simp only [win, winRows, winCols]
  split_ifs <;> rfl

/-- A non-zero result of `win` is the value held by all three cells of some line. -/
theorem win_line_of_ne_zero (board : Board) (m : Int) (hw : win board = m) (hm : m ≠ 0) :
    ∃ line ∈ lines, lineFull board m line := by
  rw [win_eq] at hw
  simp only [lines, lineFull, List.mem_cons, List.mem_singleton, List.not_mem_nil, or_false,
    exists_eq_or_imp, forall_eq_or_imp, forall_eq, exists_eq_left]
  split_ifs at hw with h1 h2 h3 h4 h5 h6 h7 h8
  all_goals first
    | exact absurd hw.symm hm
    | (subst hw; simp_all)

/-- Every line has a first cell, so a value filling a line is a cell value. -/
theorem lineFull_cell (board : Board) (m : Int) (line : List (Fin 3 × Fin 3))
    (hl : line ∈ lines) (hf : lineFull board m line) : ∃ i j, board i j = m := by
  simp only [lines, List.mem_cons, List.mem_singleton, List.not_mem_nil, or_false] at hl
  have hne : ∃ cell, cell ∈ line := by
    rcases hl with h | h | h | h | h | h | h | h <;> subst h <;>
      exact ⟨_, List.mem_cons_self _ _⟩
  obtain ⟨cell, hc⟩ := hne
  exact ⟨cell.1, cell.2, hf cell hc⟩

/-- C1, at the board the claim names (host played 4, 5, 6, client played 7, 8):
the cells are valid, the middle row holds the host's mark three times, no line
is filled with the client's mark, and `win` returns `0` instead of `1`,
because the empty top row is the first line with three equal cells. -/
theorem win_misses_middle_row :
    cellsValid middleRowBoard ∧
    [(1, 0), (1, 1), (1, 2)] ∈ lines ∧
    lineFull middleRowBoard 1 [(1, 0), (1, 1), (1, 2)] ∧
    (∀ line ∈ lines, ¬ lineFull middleRowBoard 2 line) ∧
    win middleRowBoard = 0 := by
  decide

/-- C2: on a board with cells in `{0, 1, 2}`, if no line is filled with mark 1
and none with mark 2 then `win` returns `0`; and whenever `win` returns a
non-zero `m`, `m` is a mark and some line holds `m` in all three cells. -/
theorem win_sound (board : Board) (hv : cellsValid board) :
    ((∀ line ∈ lines, ¬ lineFull board 1 line ∧ ¬ lineFull board 2 line) → win board = 0) ∧
    (∀ m, win board = m → m ≠ 0 →
      (m = 1 ∨ m = 2) ∧ ∃ line ∈ lines, lineFull board m line) := by
  have key : ∀ m, win board = m → m ≠ 0 →
      (m = 1 ∨ m = 2) ∧ ∃ line ∈ lines, lineFull board m line := by
    intro m hw hm
    obtain ⟨line, hl, hf⟩ := win_line_of_ne_zero board m hw hm
    obtain ⟨i, j, hij⟩ := lineFull_cell board m line hl hf
    refine ⟨?_, line, hl, hf⟩
    rcases hv i j with h | h | h
    · exact absurd (hij ▸ h) hm
    · exact Or.inl (hij ▸ h)
    · exact Or.inr (hij ▸ h)
  refine ⟨fun hno => ?_, key⟩
  by_contra hne
  obtain ⟨hm, line, hl, hf⟩ := key (win board) rfl hne
  rcases hm with h | h
  · exact (hno line hl).1 (h ▸ hf)
  · exact (hno line hl).2 (h ▸ hf)

/-- C2 on the empty board and on a full board without a line, which is the
board of a nine-move game of the host that ends as a draw: `win` is `0`. -/
theorem win_sound_witness :
    cellsValid drawBoard ∧ occupied drawBoard = 9 ∧
    (∀ line ∈ lines, ¬ lineFull drawBoard 1 line ∧ ¬ lineFull drawBoard 2 line) ∧
    win drawBoard = 0 ∧ win emptyBoard = 0 ∧
    (∀ i j, drawRun.1.board i j = drawBoard i j) ∧
    drawRun.1.playedIndex = 9 ∧ drawRun.2 = Exit.gameOver 0 :=
  ⟨by decide, by decide, by decide,
   (win_sound drawBoard (by decide)).1 (by decide),
   (win_sound emptyBoard (by decide)).1 (by decide),
   by decide, by decide, by decide⟩

/-! ## Recording a move: properties -/

/-- The cell of a position in `1..9`, by cases. -/
theorem cellOf_cases (position : Int) (h1 : 1 ≤ position) (h9 : position ≤ 9) :
    ∃ row col : Fin 3, cellOf position = some (row, col) ∧
      ((row : Nat) : Int) = (position - 1) / 3 ∧ ((col : Nat) : Int) = (position - 1) % 3 := by
  interval_cases position <;> decide

/-- Two positions in `1..9` with the same cell are equal. -/
theorem cellOf_injective (p q : Int) (hp1 : 1 ≤ p) (hp9 : p ≤ 9) (hq1 : 1 ≤ q) (hq9 : q ≤ 9)
    (h : cellOf p = cellOf q) : p = q := by
  interval_cases p <;> interval_cases q <;> first | rfl | exact absurd h (by decide)

/-- Every cell of the board is the cell of a position in `1..9`. -/
theorem cellOf_surjective (row col : Fin 3) :
    ∃ q : Int, 1 ≤ q ∧ q ≤ 9 ∧ cellOf q = some (row, col) := by
  fin_cases row <;> fin_cases col
  · exact ⟨1, by decide, by decide, by decide⟩
  · exact ⟨2, by decide, by decide, by decide⟩
  · exact ⟨3, by decide, by decide, by decide⟩
  · exact ⟨4, by decide, by decide, by decide⟩
  · exact ⟨5, by decide, by decide, by decide⟩
  · exact ⟨6, by decide, by decide, by decide⟩
  · exact ⟨7, by decide, by decide, by decide⟩
  · exact ⟨8, by decide, by decide, by decide⟩
  · exact ⟨9, by decide, by decide, by decide⟩

/-- C3: for a position `p` in `1..9`, either role and a history with room,
`add_movement` succeeds, writes the role's mark (1 for the host, 2 for the
client) into the cell `(row, col)` with `row = (p-1)/3` and `col = (p-1)%3`,
leaves the other cells alone and appends `p` to the history; the map from
positions to cells is injective on `1..9` and reaches every cell. -/
theorem add_movement_cell (position : Int) (isHost : Bool) (n : Nat) (played : List Int)
    (board : Board) (h1 : 1 ≤ position) (h9 : position ≤ 9) (hn : n < played.length) :
    ∃ row col : Fin 3,
      ((row : Nat) : Int) = (position - 1) / 3 ∧ ((col : Nat) : Int) = (position - 1) % 3 ∧
      (∃ board1, add_movement position isHost (some n) played board
          = some (board1, some (n + 1), played.set n position) ∧
        add_movement position isHost none played board = some (board1, none, played) ∧
        board1 row col = (if isHost then 1 else 2) ∧
        ∀ i j, ¬ (i = row ∧ j = col) → board1 i j = board i j) ∧
      (∀ q : Int, 1 ≤ q → q ≤ 9 → cellOf q = some (row, col) → q = position) ∧
      (∀ r c : Fin 3, ∃ q : Int, 1 ≤ q ∧ q ≤ 9 ∧ cellOf q = some (r, c)) := by
  obtain ⟨row, col, hc, hr, hcol⟩ := cellOf_cases position h1 h9
  refine ⟨row, col, hr, hcol, ⟨setCell board row col (markOf isHost), ?_, ?_, ?_, ?_⟩, ?_,
    cellOf_surjective⟩
  · simp [add_movement, hc, hn]
  · simp [add_movement, hc]
  · simp [setCell, markOf]
  · intro i j hij
    simp [setCell, hij]
  · intro q hq1 hq9 hq
    exact cellOf_injective q position hq1 hq9 h1 h9 (hq.trans hc.symm)

/-- C3 at position 5 played by the host on the empty board: mark 1 goes to
cell `(1, 1)`, the other cells stay empty, and 5 is the first history entry. -/
theorem add_movement_cell_witness :
    ∃ board1, add_movement 5 true (some 0) (List.replicate 9 0) emptyBoard
        = some (board1, some 1, 5 :: List.replicate 8 0) ∧
      board1 1 1 = 1 ∧ ∀ i j, ¬ (i = 1 ∧ j = 1) → board1 i j = 0 := by
  obtain ⟨row, col, hr, hc, ⟨board1, e1, -, hw, hf⟩, -, -⟩ :=
    add_movement_cell 5 true 0 (List.replicate 9 0) emptyBoard (by decide) (by decide)
      (by decide)
  have hrow : row = 1 := by
    apply Fin.ext
    have : ((row : Nat) : Int) = 1 := hr
    exact_mod_cast this
  have hcol : col = 1 := by
    apply Fin.ext
    have : ((col : Nat) : Int) = 1 := hc
    exact_mod_cast this
  subst hrow hcol
  exact ⟨board1, e1, hw, hf⟩

/-! ## Wire encoding: properties -/

/-- The bytes in memory of `htons(n)` are the high byte of `n`, then the low byte. -/
theorem storeU16_htons (littleEndian : Bool) (n : Nat) (hn : n ≤ 65535) :
    storeU16 littleEndian (htons littleEndian n) = [n / 256, n % 256] := by
  have hh : n / 256 < 256 := by omega
  have hl : n % 256 < 256 := by omega
  cases littleEndian
  · simp only [storeU16, htons, Bool.false_eq_true, if_false]
    have e1 : n % 65536 = n := by omega
    rw [e1, Nat.mod_eq_of_lt hh]
  · simp only [storeU16, htons, if_true]
    generalize n / 256 = h at hh
    generalize n % 256 = l at hl
    have e1 : (l * 256 + h % 256) % 256 = h := by omega
    have e2 : (l * 256 + h % 256) / 256 % 256 = l := by omega
    rw [e1, e2]

/-- Loading the two bytes and applying `ntohs` gives the value back. -/
theorem ntohs_loadU16 (littleEndian : Bool) (n : Nat) (hn : n ≤ 65535) :
    (loadU16 littleEndian [n / 256, n % 256]).map (ntohs littleEndian) = some n := by
  have hh : n / 256 < 256 := by omega
  have hl : n % 256 < 256 := by omega
  cases littleEndian
  · simp only [loadU16, ntohs, Bool.false_eq_true, if_false, Option.map_some']
    congr 1
    omega
  · simp only [loadU16, ntohs, if_true, Option.map_some']
    congr 1
    have e0 : n = 256 * (n / 256) + n % 256 := by omega
    generalize n / 256 = h at hh e0
    generalize n % 256 = l at hl e0
    have e1 : (h + 256 * l) % 256 = h := by omega
    have e2 : (h + 256 * l) / 256 % 256 = l := by omega
    rw [e1, e2]
    omega

/-- C6: for every value `p` in `0..65535` (so for the positions `1..9` and for
the sentinel 777) and either host byte order, the datagram of `send_movement`
is exactly two bytes, the high byte of `p` first, and `wait_to_recive` decodes
it to `p`. -/
theorem wire_round_trip (littleEndian : Bool) (p : Int) (h0 : 0 ≤ p) (h1 : p ≤ 65535) :
    moveDatagram littleEndian p = [(p / 256).toNat, (p % 256).toNat] ∧
    (moveDatagram littleEndian p).length = 2 ∧
    (∀ b ∈ moveDatagram littleEndian p, b < 256) ∧
    wait_to_recive littleEndian (moveDatagram littleEndian p) = some p := by
  obtain ⟨n, rfl⟩ := Int.eq_ofNat_of_zero_le h0
  have hn : n ≤ 65535 := by omega
  have e1 : toUint16 (n : Int) = n := by
    unfold toUint16
    omega
  have e2 : ((n : Int) / 256).toNat = n / 256 := by omega
  have e3 : ((n : Int) % 256).toNat = n % 256 := by omega
  have hd : moveDatagram littleEndian (n : Int) = [n / 256, n % 256] := by
    unfold moveDatagram
    rw [e1]
    exact storeU16_htons littleEndian n hn
  rw [hd, e2, e3]
  refine ⟨rfl, rfl, ?_, ?_⟩
  · intro b hb
    simp only [List.mem_cons, List.mem_singleton, List.not_mem_nil, or_false] at hb
    omega
  · unfold wait_to_recive
    have := ntohs_loadU16 littleEndian n hn
    cases hl : loadU16 littleEndian [n / 256, n % 256] with
    | none => simp [hl] at this
    | some r =>
      simp only [hl, Option.map_some', Option.some.injEq] at this ⊢
      exact_mod_cast this

/-- C6 for the sentinel 777 on a little-endian host: the datagram is `[3, 9]`
and decodes to 777. -/
theorem wire_round_trip_witness :
    moveDatagram true 777 = [3, 9] ∧ wait_to_recive true (moveDatagram true 777) = some 777 :=
  ⟨(wire_round_trip true 777 (by decide) (by decide)).1,
   (wire_round_trip true 777 (by decide) (by decide)).2.2.2⟩

/-! ## Acknowledgment check: properties -/

/-- C7 as stated fails: the three-byte reply `'O', 'K', 0` is not the two
bytes `'O', 'K'`, yet `send_movement` accepts it, so success is not equivalent
to the reply being exactly `'O', 'K'`. -/
theorem ack_not_exact :
    send_movement (some [79, 75, 0]) = true ∧
    ([79, 75, 0] : List Nat).length ≤ 1023 ∧
    ([79, 75, 0] : List Nat) ≠ [79, 75] ∧
    ¬ ∀ payload : List Nat, payload.length ≤ 1023 →
      (send_movement (some payload) = true ↔ payload = [79, 75]) := by
  refine ⟨by decide, by decide, by decide, fun h => ?_⟩
  exact absurd ((h [79, 75, 0] (by decide)).1 (by decide)) (by decide)

/-- C7 amended: `send_movement` succeeds exactly when the reply is the two
bytes `'O', 'K'` or starts with `'O', 'K'` and a zero byte; every other reply
is a fatal error. -/
theorem ack_accepted_iff (payload : List Nat) :
    send_movement (some payload) = true ↔
      payload = [79, 75] ∨ ∃ rest, payload = 79 :: 75 :: 0 :: rest := by
  have hm : MAX_RESPONSE - 1 = 1020 + 3 := by decide
  simp only [send_movement, ackAccepted, replyBuffer, OK, hm, decide_eq_true_eq]
  match payload with
  | [] => simp [strcmp]
  | [a] =>
    simp only [strcmp, List.take, List.cons_append, List.nil_append]
    split_ifs <;> simp_all [sub_eq_zero]
    omega
  | [a, b] =>
    simp only [strcmp, List.take, List.cons_append, List.nil_append]
    split_ifs <;> simp_all [sub_eq_zero] <;> omega
  | a :: b :: c :: rest =>
    simp only [strcmp, List.take, List.cons_append, List.nil_append]
    split_ifs <;> simp_all [sub_eq_zero] <;> omega

/-! ## The local turn: properties -/

/-- A call of `add_movement` made by `main`: it is appended to the record,
touches neither the flag nor the sent moves nor the size of the history array,
and either succeeds and counts one more move, or fails and changes nothing. -/
theorem callAddMovement_spec (position : Int) (isHost fromLocal : Bool) (st st1 : State)
    (ok : Bool) (h : callAddMovement position isHost fromLocal st = (st1, ok)) :
    st1.calls = st.calls ++ [⟨st.playedIndex, position, isHost, fromLocal⟩] ∧
    st1.sent = st.sent ∧ st1.alreadyPlayed = st.alreadyPlayed ∧
    st1.played.length = st.played.length ∧
    (ok = true → st1.playedIndex = st.playedIndex + 1 ∧ st.playedIndex < st.played.length ∧
      st1.played = st.played.set st.playedIndex position) ∧
    (ok = false → st1.playedIndex = st.playedIndex ∧ st1.played = st.played) := by
  unfold callAddMovement at h
  simp only at h
  split at h
  · next board1 n played1 hadd =>
    simp only [Prod.mk.injEq] at h
    obtain ⟨h1, h2⟩ := h
    subst h1 h2
    unfold add_movement at hadd
    split at hadd
    · exact absurd hadd (by simp)
    · simp only at hadd
      split_ifs at hadd with hlt
      simp only [Option.some.injEq, Prod.mk.injEq] at hadd
      obtain ⟨-, hn, hp⟩ := hadd
      subst hn hp
      simp [hlt]
  · simp only [Prod.mk.injEq] at h
    obtain ⟨h1, h2⟩ := h
    subst h1 h2
    simp

/-- Appending a call that is in order at the next index keeps the record in order. -/
theorem CallsOk_append (host : Bool) (calls : List Call) (c : Call)
    (h : CallsOk host calls) (hc : CallOk host calls.length c) :
    CallsOk host (calls ++ [c]) := by
  intro k d hk
  by_cases hlt : k < calls.length
  · rw [List.getElem?_append_left hlt] at hk
    exact h k d hk
  · have hge : calls.length ≤ k := Nat.le_of_not_lt hlt
    rw [List.getElem?_append_right hge] at hk
    by_cases he : k = calls.length
    · subst he
      simp only [Nat.sub_self, List.getElem?_cons_zero, Option.some.injEq] at hk
      subst hk
      exact hc
    · have hpos : k - calls.length = (k - calls.length - 1) + 1 := by omega
      rw [hpos] at hk
      simp at hk

/-- Writing slot `n` of the history extends its first `n` entries by the written value. -/
theorem take_succ_set (l : List Int) (n : Nat) (p : Int) (h : n < l.length) :
    (l.set n p).take (n + 1) = l.take n ++ [p] := by
  induction l generalizing n with
  | nil => simp at h
  | cons x xs ih =>
    cases n with
    | zero => simp
    | succ m =>
      have hm : m < xs.length := by simpa using h
      simp [ih m hm]

/-- A call of `add_movement` made in turn keeps the record in order. -/
theorem call_step (host : Bool) (position : Int) (isHost fromLocal : Bool) (st st1 : State)
    (ok : Bool) (hcall : callAddMovement position isHost fromLocal st = (st1, ok))
    (hlen : st.played.length = 9) (hlt : st.playedIndex < 9)
    (hcl : st.calls.length = st.playedIndex) (hok : CallsOk host st.calls)
    (hpar : isHost = true ↔ st.playedIndex % 2 = 0) (hloc : fromLocal = true ↔ isHost = host)
    (hhist : st.played.take st.playedIndex = (st.calls.take st.playedIndex).map Call.position) :
    st1.played.length = 9 ∧ CallsOk host st1.calls ∧
    st1.calls.length = st.playedIndex + 1 ∧
    (ok = true → st1.playedIndex = st.playedIndex + 1) ∧
    (ok = false → st1.playedIndex = st.playedIndex) ∧
    st1.played.take st1.playedIndex = (st1.calls.take st1.playedIndex).map Call.position := by
  obtain ⟨hc, -, -, hpl, hT, hF⟩ := callAddMovement_spec _ _ _ _ _ _ hcall
  have hfull : (st.calls.take st.playedIndex) = st.calls :=
    List.take_of_length_le (by rw [hcl])
  rw [hfull] at hhist
  refine ⟨hpl.trans hlen, ?_, ?_, fun h => (hT h).1, fun h => (hF h).1, ?_⟩
  rotate_left 2
  · cases ok
    · obtain ⟨e1, e2⟩ := hF rfl
      rw [e1, e2, hc, hhist, List.take_left' hcl]
    · obtain ⟨e1, e2, e3⟩ := hT rfl
      rw [e1, e3, hc, take_succ_set _ _ _ e2, hhist,
        List.take_of_length_le (by rw [List.length_append, hcl]; simp)]
      simp
  · rw [hc]
    apply CallsOk_append host _ _ hok
    rw [hcl]
    exact ⟨rfl, hlt, hpar, hloc⟩
  · rw [hc, List.length_append, hcl]
    rfl

/-- The loop invariant implies what is claimed of every final state. -/
theorem LoopInv.toEnd {host : Bool} {st : State} (h : LoopInv host st) : EndInv host st :=
  ⟨h.length_played, h.count_le, h.calls_length ▸ h.count_le, h.calls_length ▸ Nat.le_refl _,
   h.calls_ok, h.history⟩

/-- From a state in which the local move has just been recorded, the rest of
the loop body ends in a state with an orderly record, and returns to the loop
condition only with the loop invariant. -/
theorem afterLocalMove_inv (host : Bool) (position : Int) (st : State)
    (hlen : st.played.length = 9) (hle : st.playedIndex ≤ 9) (hpos : 0 < st.playedIndex)
    (hcl : st.calls.length = st.playedIndex) (hok : CallsOk host st.calls)
    (hpar : st.playedIndex % 2 = if host then 1 else 0)
    (hhist : st.played.take st.playedIndex = (st.calls.take st.playedIndex).map Call.position) :
    EndInv host (afterLocalMove host position st).1 ∧
    ((afterLocalMove host position st).2 = Flow.next →
      LoopInv host (afterLocalMove host position st).1) := by
  have hend : ∀ s : State, s.played = st.played → s.playedIndex = st.playedIndex →
      s.calls = st.calls → EndInv host s := by
    intro s h1 h2 h3
    exact ⟨by rw [h1]; exact hlen, by rw [h2]; exact hle, by rw [h3, hcl]; exact hle,
      by rw [h2, h3, hcl], by rw [h3]; exact hok, by rw [h1, h2, h3]; exact hhist⟩
  unfold afterLocalMove
  simp only
  split
  · exact ⟨hend _ rfl rfl rfl, by simp⟩
  · split_ifs with h1 h2 h3
    · exact ⟨hend _ rfl rfl rfl, by simp⟩
    · exact ⟨hend _ rfl rfl rfl, by simp⟩
    · exact ⟨hend _ rfl rfl rfl, by simp⟩
    · split
      · exact ⟨hend _ rfl rfl rfl, by simp⟩
      · generalize hcall : callAddMovement _ _ _ _ = r
        obtain ⟨st3, ok⟩ := r
        have hlt : st.playedIndex < 9 := by
          simp only at h3
          omega
        have hp : (!host) = true ↔ st.playedIndex % 2 = 0 := by
          cases host <;> simp at hpar ⊢ <;> omega
        have hl : false = true ↔ (!host) = host := by cases host <;> simp
        obtain ⟨k1, k2, k3, k4, k5, k6⟩ :=
          call_step host _ _ _ _ _ _ hcall hlen hlt hcl hok hp hl hhist
        simp only at k3 k4 k5
        cases ok
        · have e := k5 rfl
          exact ⟨⟨k1, by rw [e]; exact hle, by rw [k3]; omega, by rw [e, k3]; omega, k2, k6⟩,
            by simp⟩
        · have e := k4 rfl
          have hinv : LoopInv host st3 :=
            ⟨k1, by rw [e]; omega, by rw [k3, e], fun h0 => by omega,
              by rw [e]; cases host <;> simp at hpar ⊢ <;> omega, k2, k6⟩
          simp only
          split_ifs
          · exact ⟨hinv.toEnd, by simp⟩
          · exact ⟨hinv.toEnd, fun _ => hinv⟩

/-- One pass through the loop body from the loop invariant ends in a state
with an orderly record, and returns to the loop condition only with the loop
invariant. -/
theorem loopBody_inv (host : Bool) (st : State) (input : List Char)
    (hinv : LoopInv host st) (hlt : st.playedIndex < 9) :
    EndInv host (loopBody host st input).1 ∧
    ((loopBody host st input).2 = Flow.next → LoopInv host (loopBody host st input).1) := by
  unfold loopBody
  split
  · exact ⟨hinv.toEnd, fun _ => hinv⟩
  · next position _ =>
    split_ifs with hr
    · exact ⟨hinv.toEnd, fun _ => hinv⟩
    · simp only
      split_ifs with hscan
      · have hne : st.played.take st.playedIndex ≠ [] := by
          intro he
          rw [he] at hscan
          simp only [scanPlayed] at hscan
          have h0 : st.playedIndex = 0 := by
            have hl : (st.played.take st.playedIndex).length = 0 := by rw [he]; rfl
            rw [List.length_take, hinv.length_played] at hl
            omega
          rw [hinv.flag h0] at hscan
          exact absurd hscan (by decide)
        have hpos : st.playedIndex ≠ 0 := by
          intro h0
          apply hne
          rw [h0]
          rfl
        have hinv1 : LoopInv host { st with
            alreadyPlayed :=
              scanPlayed position (st.played.take st.playedIndex) st.alreadyPlayed } :=
          ⟨hinv.length_played, hinv.count_le, hinv.calls_length,
            fun h0 => absurd h0 hpos, hinv.parity, hinv.calls_ok, hinv.history⟩
        exact ⟨hinv1.toEnd, fun _ => hinv1⟩
      · generalize hcall : callAddMovement _ _ _ _ = r
        obtain ⟨st2, ok⟩ := r
        have hp : host = true ↔ st.playedIndex % 2 = 0 := by
          have := hinv.parity
          cases host <;> simp at this ⊢ <;> omega
        obtain ⟨k1, k2, k3, k4, k5, k6⟩ :=
          call_step host _ _ _ _ _ _ hcall hinv.length_played hlt hinv.calls_length
            hinv.calls_ok hp (by simp) hinv.history
        simp only at k3 k4 k5
        cases ok
        · have e := k5 rfl
          exact ⟨⟨k1, by rw [e]; exact hinv.count_le, by rw [k3]; omega, by rw [e, k3]; omega,
            k2, k6⟩, by simp⟩
        · have e := k4 rfl
          exact afterLocalMove_inv host position st2 k1 (by rw [e]; omega) (by rw [e]; omega)
            (by rw [k3, e]) k2
            (by
              rw [e]
              have := hinv.parity
              cases host <;> simp at this ⊢ <;> omega) k6

/-- The turn loop started from the loop invariant ends in a state with an
orderly record. -/
theorem turnLoop_inv (host : Bool) (stdin : List (List Char)) :
    ∀ st : State, LoopInv host st → EndInv host (turnLoop host stdin st).1 := by
  induction stdin with
  | nil =>
    intro st hinv
    unfold turnLoop
    split_ifs <;> exact hinv.toEnd
  | cons input rest ih =>
    intro st hinv
    unfold turnLoop
    split_ifs with hlt
    · obtain ⟨hE, hN⟩ := loopBody_inv host st input hinv hlt
      generalize hb : loopBody host st input = r at hE hN
      obtain ⟨st1, flow⟩ := r
      cases flow with
      | next => exact ih st1 (hN rfl)
      | leave => exact hE
      | halt e => exact hE
    · exact hinv.toEnd

/-- The record is in order wherever the game of `main` ends or blocks, for
either role and all inputs. -/
theorem main_inv (host : Bool) (stdin : List (List Char)) (net : List Nat)
    (acks : List (Option (List Nat))) : EndInv host (main host stdin net acks).1 := by
  have hnil : CallsOk host [] := by
    intro k c hk
    simp at hk
  have hend : ∀ s : State, s.played = List.replicate 9 0 → s.playedIndex = 0 →
      s.calls = [] → EndInv host s := by
    intro s h1 h2 h3
    exact ⟨by rw [h1]; rfl, by rw [h2]; omega, by rw [h3]; simp, by rw [h2]; omega,
      by rw [h3]; exact hnil, by rw [h2, h3]; rfl⟩
  unfold main
  simp only
  cases host
  · simp only [Bool.false_eq_true, if_false]
    split
    · exact hend _ rfl rfl rfl
    · split_ifs
      · exact hend _ rfl rfl rfl
      · split
        · exact hend _ rfl rfl rfl
        · generalize hcall : callAddMovement _ _ _ _ = r
          obtain ⟨st3, ok⟩ := r
          obtain ⟨k1, k2, k3, k4, k5, k6⟩ :=
            call_step false _ _ _ _ _ _ hcall (by rfl) (by simp [initial]) (by rfl) hnil
              (by simp [initial]) (by simp) (by rfl)
          simp only [initial] at k3 k4 k5
          cases ok
          · have e := k5 rfl
            exact ⟨k1, by rw [e]; omega, by rw [k3]; omega, by rw [e, k3]; omega, k2, k6⟩
          · have e := k4 rfl
            exact turnLoop_inv false stdin st3
              ⟨k1, by rw [e]; omega, by rw [k3, e], fun h0 => by rw [e] at h0; omega,
                by rw [e]; rfl, k2, k6⟩
  · simp only [if_true]
    split
    · exact hend _ rfl rfl rfl
    · split_ifs
      · exact turnLoop_inv true stdin _
          ⟨by rfl, by simp [initial], by rfl, fun _ => rfl, by rfl, hnil, by rfl⟩
      · exact hend _ rfl rfl rfl

/-! ## The turn loop: properties -/

/-- What `readLine` stores and what it leaves make up the stream, and what it
stores fits the room. -/
theorem readLine_spec (room : Nat) (stream : List Char) :
    (readLine room stream).1 ++ (readLine room stream).2 = stream ∧
    (readLine room stream).1.length ≤ room := by
  induction room generalizing stream with
  | zero => simp [readLine]
  | succ room ih =>
    cases stream with
    | nil => simp [readLine]
    | cons c cs =>
      simp only [readLine]
      split_ifs with hc
      · simp
      · obtain ⟨h1, h2⟩ := ih cs
        simp [h1, h2]

/-- Every successful `fgets` takes at least one character. -/
theorem fgets_rest_length (stream input rest : List Char)
    (h : fgets 10 stream = some (input, rest)) : rest.length < stream.length := by
  cases stream with
  | nil => simp [fgets] at h
  | cons c cs =>
    simp only [fgets, Option.some.injEq] at h
    have h2 : rest = (readLine 9 (c :: cs)).2 := by rw [h]
    rw [h2]
    simp only [readLine]
    split_ifs
    · simp
    · have := readLine_spec 8 cs
      have hl := congrArg List.length this.1
      simp only [List.length_append] at hl
      simp only [List.length_cons]
      omega

/-- With as many calls as the stream has characters nothing stays unread: the
stored buffers make up the stream, and each holds between 1 and 9 characters. -/
theorem buffers_spec (fuel : Nat) :
    ∀ stream : List Char, stream.length ≤ fuel →
      (buffers fuel stream).flatten = stream ∧
      ∀ input ∈ buffers fuel stream, input ≠ [] ∧ input.length ≤ 9 := by
  induction fuel with
  | zero =>
    intro stream h
    have : stream = [] := List.length_eq_zero.mp (Nat.le_zero.mp h)
    subst this
    simp [buffers]
  | succ fuel ih =>
    intro stream h
    cases hf : fgets 10 stream with
    | none =>
      cases stream with
      | nil => simp [buffers, fgets]
      | cons c cs => simp [fgets] at hf
    | some r =>
      obtain ⟨input, rest⟩ := r
      have hlt := fgets_rest_length stream input rest hf
      obtain ⟨j, hb⟩ := ih rest (by omega)
      have hio : input ++ rest = stream ∧ input.length ≤ 9 ∧ input ≠ [] := by
        cases stream with
        | nil => simp [fgets] at hf
        | cons c cs =>
          simp only [fgets, Option.some.injEq] at hf
          have hs := readLine_spec 9 (c :: cs)
          rw [hf] at hs
          refine ⟨hs.1, hs.2, ?_⟩
          intro he
          have hl := congrArg List.length hs.1
          simp only [he, List.nil_append] at hl
          omega
      simp only [buffers, hf, List.flatten_cons, j, List.mem_cons]
      refine ⟨hio.1, ?_⟩
      intro x hx
      rcases hx with hx | hx
      · subst hx
        exact ⟨hio.2.2, hio.2.1⟩
      · exact hb x hx

/-- The buffers read from a stream make it up, each with 1 to 9 characters. -/
theorem stdinBuffers_spec (stream : List Char) :
    (stdinBuffers stream).flatten = stream ∧
    ∀ input ∈ stdinBuffers stream, input ≠ [] ∧ input.length ≤ 9 :=
  buffers_spec stream.length stream (Nat.le_refl _)

/-- C8, at two received values the host does not check. After the host's
move 5 the peer sends 5: the history becomes `[5, 5]`, two moves are counted
and one cell is occupied. After the host's move 5 the peer sends 777: the
write of `add_movement` falls outside the board. -/
theorem history_not_distinct :
    duplicateRun.1.playedIndex = 2 ∧
    duplicateRun.1.played.take duplicateRun.1.playedIndex = [5, 5] ∧
    ¬ (duplicateRun.1.played.take duplicateRun.1.playedIndex).Nodup ∧
    occupied duplicateRun.1.board = 1 ∧
    sentinelRun.2 = Exit.memoryFault ∧
    sentinelRun.1.calls.getLast? = some ⟨1, 777, false, false⟩ := by
  decide

/-- C9, in the legal game 4, 7, 5, 8, 6 seen by the host: after the host's
move 6 the middle row holds the host's mark three times, yet `win` is `0` and
the process waits for the peer's next move; when the peer sends 9 and the host
types 1, both are recorded as moves six and seven before the game is over. -/
theorem game_continues_after_line :
    (∀ i j, middleRowRun.1.board i j = middleRowBoard i j) ∧
    lineFull middleRowRun.1.board 1 [(1, 0), (1, 1), (1, 2)] ∧
    win middleRowRun.1.board = 0 ∧
    middleRowRun.2 = Exit.awaitingMove ∧
    middleRowRunOn.1.played.take middleRowRunOn.1.playedIndex = [4, 7, 5, 8, 6, 9, 1] ∧
    middleRowRunOn.1.calls.length = 7 ∧
    middleRowRunOn.2 = Exit.gameOver 1 := by
  decide

/-- C10: for either role and all local inputs, received values and replies,
every call of `add_movement` made by `main` finds a move count below 9, which
is the size of the history array, so the write `played[count]` is in bounds;
the move count never exceeds 9 and at most 9 calls are made. -/
theorem history_bounds (host : Bool) (stdin : List (List Char)) (net : List Nat)
    (acks : List (Option (List Nat))) :
    (∀ c ∈ (main host stdin net acks).1.calls,
      c.count < 9 ∧ c.count < (main host stdin net acks).1.played.length) ∧
    (main host stdin net acks).1.played.length = 9 ∧
    (main host stdin net acks).1.playedIndex ≤ 9 ∧
    (main host stdin net acks).1.calls.length ≤ 9 := by
  have hinv := main_inv host stdin net acks
  refine ⟨?_, hinv.length_played, hinv.count_le, hinv.calls_length⟩
  intro c hc
  obtain ⟨k, hk⟩ := List.getElem?_of_mem hc
  obtain ⟨h1, h2, -, -⟩ := hinv.calls_ok k c hk
  rw [hinv.length_played, h1]
  exact ⟨h2, h2⟩

end TicTacToe
